import Mathlib

/-!
Verification development for the Yunikorn-study scheduler core.

The Go sources embedded here:
* `scheduler/scheduling_allocation_ask.go` — `AddPendingAskRepeat`
* `scheduler/scheduling_queue.go` — `IncPendingResource`, `DecPendingResource`,
  `RemoveQueue`, `removeChildQueue`
* `scheduler/sorters.go` — `SortQueue`
* `scheduler/partition_manager.go` / `scheduling_context.go` — `PartitionManager.Run`,
  `PartitionManager.Stop`, teardown paths
* `scheduler/drf_preemption_policy.go` — `headroomShortageUpdate`,
  `initHeadroomShortages`, `trySurgicalPreemptionOnNode`, `crossQueuePreemptionAllocate`
* `scheduler/placement/fixed_rule.go` — `fixedRule.placeApplication`

The `pkg/common/resources` package is not part of the sources; its operations are
modelled from the specification's resource-algebra section (§4.1).
-/

namespace resources

/-- Modelled from the spec: a Resource is a mapping from resource-type name to an
integer quantity, missing keys treated as zero (`pkg/common/resources` is not in
the sources). Represented as an association list. -/
abbrev Resource := List (String × Int)

/-- Quantity of resource type `k` in `r`; missing keys are zero. -/
def get (r : Resource) (k : String) : Int := (r.lookup k).getD 0

/-- The list of resource-type names appearing in either operand, deduplicated. -/
def keysUnion (a b : Resource) : List String :=
  (a.map Prod.fst ++ b.map Prod.fst).dedup

/-- Build a resource over an explicit key list from a per-key quantity. -/
def ofFun (ks : List String) (f : String → Int) : Resource :=
  ks.map fun k => (k, f k)

/-- Modelled from the spec: componentwise addition (`resources.Add` / `AddTo`). -/
def Add (a b : Resource) : Resource :=
  ofFun (keysUnion a b) fun k => get a k + get b k

/-- Modelled from the spec: componentwise subtraction (`resources.Sub` / `SubFrom`). -/
def Sub (a b : Resource) : Resource :=
  ofFun (keysUnion a b) fun k => get a k - get b k

/-- Modelled from the spec: componentwise max with 0 after subtraction
(`resources.SubEliminateNegative`). -/
def SubEliminateNegative (a b : Resource) : Resource :=
  ofFun (keysUnion a b) fun k => max (get a k - get b k) 0

/-- Modelled from the spec: componentwise maximum (`resources.ComponentWiseMax`). -/
def ComponentWiseMax (a b : Resource) : Resource :=
  ofFun (keysUnion a b) fun k => max (get a k) (get b k)

/-- The zero resource (`resources.Zero`, `resources.NewResource()`). -/
def Zero : Resource := []

/-- Modelled from the spec: any component strictly greater than zero
(`resources.StrictlyGreaterThanZero`). -/
def StrictlyGreaterThanZero (r : Resource) : Bool :=
  r.any fun p => decide (0 < get r p.1)

/-- Modelled from the spec: all components `≥`, at least one `>`
(`resources.StrictlyGreaterThan`). -/
def StrictlyGreaterThan (a b : Resource) : Bool :=
  ((keysUnion a b).all fun k => decide (get b k ≤ get a k)) &&
    ((keysUnion a b).any fun k => decide (get b k < get a k))

/-- Modelled from the spec: all components `≥` (`resources.StrictlyGreaterThanOrEquals`). -/
def StrictlyGreaterThanOrEquals (a b : Resource) : Bool :=
  (keysUnion a b).all fun k => decide (get b k ≤ get a k)

/-- The exact rational `n/d` for one dimension (`mkRat n 0 = 0`; capacities are
non-negative so the `toNat` clamp is inert). -/
def ratio (n d : Int) : ℚ := mkRat n d.toNat

/-- Modelled from the spec: the fairness ratio of usage `a` against capacity `c` is
the dominant share, `max` over resource types of `a[k]/c[k]`. -/
def dominantShare (a c : Resource) : ℚ :=
  (keysUnion a c).foldl (fun q k => max q (ratio (get a k) (get c k))) 0

/-- Insert a string into a sorted list, keeping it sorted. -/
def insertStr (s : String) : List String → List String
  | [] => [s]
  | t :: ts => if s < t then s :: t :: ts else t :: insertStr s ts

/-- Sort a list of resource-type names (for the deterministic tie-break). -/
def sortKeys : List String → List String
  | [] => []
  | s :: ss => insertStr s (sortKeys ss)

/-- Lexicographic comparison of per-key ratios along a key list. -/
def tieBreak (lU lC rU rC : Resource) : List String → Int
  | [] => 0
  | k :: ks =>
    let ra : ℚ := ratio (get lU k) (get lC k)
    let rb : ℚ := ratio (get rU k) (get rC k)
    if ra < rb then -1 else if rb < ra then 1 else tieBreak lU lC rU rC ks

/-- Modelled from the spec: `resources.CompFairnessRatio` returns −1/0/+1 by
comparing the dominant shares of two used/capacity pairs, with a lexicographic
tie-break over the dimensions sorted by key. -/
def CompFairnessRatio (lU lC rU rC : Resource) : Int :=
  let dl := dominantShare lU lC
  let dr := dominantShare rU rC
  if dl < dr then -1
  else if dr < dl then 1
  else tieBreak lU lC rU rC
    (sortKeys ((lU.map Prod.fst ++ lC.map Prod.fst ++ rU.map Prod.fst ++ rC.map Prod.fst).dedup))

/-- Modelled from the spec: `resources.Comp(total, a, b)` compares `a` and `b` by
their dominant shares against the shared capacity `total`. -/
def Comp (total a b : Resource) : Int :=
  CompFairnessRatio a total b total

end resources

namespace scheduler

open resources

/-! ### SchedulingAllocationAsk.AddPendingAskRepeat (scheduling_allocation_ask.go) -/

/-- Two's-complement wrap to 32 bits, the behaviour of Go `int32` addition. -/
def int32wrap (x : Int) : Int := (x + 2 ^ 31) % 2 ^ 32 - 2 ^ 31

/-- `SchedulingAllocationAsk.AddPendingAskRepeat`: if `PendingRepeatAsk + delta >= 0`
(computed in `int32`) then update the field and return `true`, else leave it
unchanged and return `false`. Returns `(returnValue, newPendingRepeatAsk)`. -/
def AddPendingAskRepeat (pendingRepeatAsk delta : Int) : Bool × Int :=
  let s := int32wrap (pendingRepeatAsk + delta)
  if 0 ≤ s then (true, s) else (false, pendingRepeatAsk)

/-! ### SortQueue (sorters.go) -/

/-- The `SortType` constants of sorters.go. -/
def FairSortPolicy : Int := 0

def FifoSortPolicy : Int := 1

def MaxAvailableResources : Int := 2

/-- The fields of a `SchedulingQueue` read by `SortQueue`: its `ProposingResource`
and its `CachedQueueInfo.GuaranteedResource`. -/
structure SortQueueEntry where
  ProposingResource : Resource
  GuaranteedResource : Resource
deriving DecidableEq, Repr

/-- Stable insertion: `x` is placed after every earlier element `y` with `lt y x`,
matching the ordering produced by Go's `sort.SliceStable`. -/
def insertByLt {α : Type} (lt : α → α → Bool) (x : α) : List α → List α
  | [] => [x]
  | y :: ys => if lt y x then y :: insertByLt lt x ys else x :: y :: ys

/-- Stable sort by a boolean less-than, matching Go's `sort.SliceStable`. -/
def stableSortByLt {α : Type} (lt : α → α → Bool) : List α → List α
  | [] => []
  | x :: xs => insertByLt lt x (stableSortByLt lt xs)

/-- The comparator sorters.go passes to `sort.SliceStable` for queues: note the
source passes `l.CachedQueueInfo.GuaranteedResource` as the capacity for BOTH
sides (`l` twice). -/
def sortQueueLess (l r : SortQueueEntry) : Bool :=
  decide (CompFairnessRatio l.ProposingResource l.GuaranteedResource
      r.ProposingResource l.GuaranteedResource < 0)

/-- `SortQueue`: under `FairSortPolicy` stable-sort the slice with
`sortQueueLess`; any other sort type leaves the slice untouched. -/
def SortQueue (queues : List SortQueueEntry) (sortType : Int) : List SortQueueEntry :=
  if sortType = FairSortPolicy then stableSortByLt sortQueueLess queues else queues

/-! ### SchedulingQueue pending resource (scheduling_queue.go)

A queue is identified by its chain of names from itself UP to the root, leaf
name first: the root is `[]` and a child named `c` of queue `p` is `c :: p`.
The parent pointer set up by `NewSchedulingQueueInfo` therefore maps the
non-root queue `c :: p` to `p`, and the recursion through `sq.parent` in the
source becomes structural recursion on the list. The mutable heap of
`pendingResource` fields is a function from queue identities to resources. -/

abbrev QueuePath := List String

abbrev PendingMap := QueuePath → Resource

/-- `SchedulingQueue.IncPendingResource`: recursively update the parent first
(when there is one), then add `delta` to this queue's own `pendingResource`. -/
def IncPendingResource (st : PendingMap) (q : QueuePath) (delta : Resource) : PendingMap :=
  match q with
  | [] => fun p => if p = [] then Add (st []) delta else st p
  | x :: xs =>
    let st1 := IncPendingResource st xs delta
    fun p => if p = x :: xs then Add (st1 p) delta else st1 p

/-- `SchedulingQueue.DecPendingResource`: recursively update the parent first
(when there is one), then subtract `delta` from this queue's own
`pendingResource`. The source does not guard against going negative
(its own TODO remarks on this). -/
def DecPendingResource (st : PendingMap) (q : QueuePath) (delta : Resource) : PendingMap :=
  match q with
  | [] => fun p => if p = [] then Sub (st []) delta else st p
  | x :: xs =>
    let st1 := DecPendingResource st xs delta
    fun p => if p = x :: xs then Sub (st1 p) delta else st1 p

/-- The queue itself and its ancestors up to the root, following the parent
links: exactly the queues whose `pendingResource` the recursion above visits. -/
def ancestorChain : QueuePath → List QueuePath
  | [] => [[]]
  | x :: xs => (x :: xs) :: ancestorChain xs

/-! ### SchedulingQueue.RemoveQueue (scheduling_queue.go) -/

/-- The key under which `NewSchedulingQueueInfo` registers a queue in its parent's
`childrenQueues` map: `sq.Name[strings.LastIndex(sq.Name, ".")+1:]`, the part of
the fully qualified name after the last dot (the whole name when it has none). -/
def childKey (fullName : String) : String :=
  String.mk ((fullName.toList.reverse.takeWhile fun c => c ≠ '.').reverse)

/-- The fields of a `SchedulingQueue` read by `RemoveQueue`. `Name` is the fully
qualified path. -/
structure RemovableQueue where
  Name : String
  managed : Bool
  running : Bool
  childrenCount : Nat
  applicationsCount : Nat
deriving DecidableEq, Repr

/-- `SchedulingQueue.removeChildQueue(name)`: `delete(sq.childrenQueues, name)` on
the parent's children map (an association list keyed as `NewSchedulingQueueInfo`
keyed it). -/
def removeChildQueue (children : List (String × String)) (name : String) :
    List (String × String) :=
  children.filter fun kv => kv.1 ≠ name

/-- `SchedulingQueue.RemoveQueue`: refuse when managed and running, refuse when
children or applications remain, otherwise call
`sq.parent.removeChildQueue(sq.Name)` — note the argument is the FULL queue name —
and return true. Result: (return value, parent's children map afterwards). -/
def RemoveQueue (sq : RemovableQueue) (parentChildren : List (String × String)) :
    Bool × List (String × String) :=
  if sq.managed && sq.running then (false, parentChildren)
  else if sq.childrenCount > 0 || sq.applicationsCount > 0 then (false, parentChildren)
  else (true, removeChildQueue parentChildren sq.Name)

/-! ### PartitionManager (partition_manager.go, scheduling_context.go)

Both `Run` and `Stop` are declared with VALUE receivers
(`func (manager PartitionManager) ...`). Per Go semantics a method call through
the stored `*PartitionManager` copies the struct into the receiver, and
`go newPartition.partitionManager.Run()` copies the struct into the goroutine
when it is spawned. -/

structure PartitionManager where
  stop : Bool
deriving DecidableEq, Repr

/-- `PartitionManager.Stop`: sets `stop` on its (value) receiver and returns the
mutated copy. -/
def PartitionManager.Stop (manager : PartitionManager) : PartitionManager :=
  { manager with stop := true }

/-- The heap cell after `deleteSchedulingPartitions` runs
`partition.partitionManager.Stop()`: the value receiver is a copy, so the
mutation is dropped and the stored struct is returned unchanged. -/
def stopCallOnStoredManager (stored : PartitionManager) : PartitionManager :=
  let _receiverCopy := PartitionManager.Stop stored
  stored

/-- The heap cell after `RemoveSchedulingPartitionsByRMId` runs
`partition.partitionManager.stop = true`: a direct field write through the
pointer, which does change the stored struct. -/
def setStopFlagByRMId (stored : PartitionManager) : PartitionManager :=
  { stored with stop := true }

/-- The `PartitionManager` value the `Run` goroutine holds: the copy made of the
stored struct when `go ... Run()` was executed in `updateSchedulingPartitions`,
immediately after the manager was created with `stop` at its zero value. -/
def spawnedRunReceiver : PartitionManager := { stop := false }

/-- Whether `Run`'s loop has exited within `n` ticks: each tick runs
`cleanQueues` and then breaks if the receiver copy's `stop` field is set.
Nothing in the loop body writes that field. -/
def runLoopExitsWithin (managerCopy : PartitionManager) : Nat → Bool
  | 0 => false
  | n + 1 => if managerCopy.stop then true else runLoopExitsWithin managerCopy n

/-! ### DRF preemption engine (drf_preemption_policy.go)

`preemptionQueueContext` chains are walked only through the `parent` pointer, so
a context is embedded as the list of per-queue records from the queue itself up
to the root. -/

/-- The fields of one `preemptionQueueContext` chain element read by
`initHeadroomShortages`: its path and its `resources.max`, the queue's
`GetAllocatingResource()` and `resources.markedPreemptedResource`. -/
structure QueueCtxInfo where
  queuePath : String
  maxRes : Resource
  allocating : Resource
  markedPreempted : Resource
deriving DecidableEq, Repr

/-- Headroom of one chain element: `max - may_allocated + preempting`
(`resources.Sub` then `resources.AddTo` in the source). -/
def headroomOf (c : QueueCtxInfo) : Resource :=
  Add (Sub c.maxRes c.allocating) c.markedPreempted

/-- `initHeadroomShortages`: walk the preemptor chain up to the root; for each
queue compute `SubEliminateNegative(ask, headroom)` and record it under the
queue's path when it is strictly greater than zero somewhere. -/
def initHeadroomShortages (chain : List QueueCtxInfo) (allocatedResource : Resource) :
    List (String × Resource) :=
  chain.foldl
    (fun m cur =>
      let headroomShortage := SubEliminateNegative allocatedResource (headroomOf cur)
      if StrictlyGreaterThanZero headroomShortage then m ++ [(cur.queuePath, headroomShortage)]
      else m)
    []

/-- Replace the binding of `k` in an association list (Go map assignment). -/
def mapSet (m : List (String × Resource)) (k : String) (v : Resource) :
    List (String × Resource) :=
  m.map fun kv => if kv.1 = k then (k, v) else kv

/-- Remove the binding of `k` from an association list (Go `delete`). -/
def mapDelete (m : List (String × Resource)) (k : String) : List (String × Resource) :=
  m.filter fun kv => kv.1 ≠ k

/-- `headroomShortageUpdate`: with an empty shortage map no positive contribution
is possible; otherwise walk the preemptee chain (its queue paths, self first,
then ancestors), and for every chain queue present in the map subtract the
allocation with `SubEliminateNegative`; on a strict decrease record the positive
contribution and store the new shortage, deleting it when it reached zero.
Returns (positiveContribution, updated map). -/
def headroomShortageUpdate (preempteeChain : List String) (allocationResource : Resource)
    (queueHeadroomShortages : List (String × Resource)) :
    Bool × List (String × Resource) :=
  if queueHeadroomShortages.isEmpty then (false, queueHeadroomShortages)
  else
    preempteeChain.foldl
      (fun acc queuePath =>
        let m := acc.2
        match m.lookup queuePath with
        | none => acc
        | some headroomShortage =>
          let newHeadroomShortage := SubEliminateNegative headroomShortage allocationResource
          if StrictlyGreaterThan headroomShortage newHeadroomShortage then
            if StrictlyGreaterThanZero newHeadroomShortage then
              (true, mapSet m queuePath newHeadroomShortage)
            else (true, mapDelete m queuePath)
          else acc)
      (false, queueHeadroomShortages)

/-- The fields of one `preemptionQueueContext` held in
`preemptionPartitionContext.leafQueues` that trySurgicalPreemptionOnNode reads:
the preemptable resource, the chain of queue paths for `headroomShortageUpdate`
(self first, ancestors up to root), and the full chain records for
`initHeadroomShortages` on a preemptor. -/
structure PreemptionQueueCtx where
  chain : List QueueCtxInfo
  preemptable : Resource
deriving DecidableEq, Repr

/-- The queue paths of a chain, self first. -/
def chainPaths (q : PreemptionQueueCtx) : List String :=
  q.chain.map QueueCtxInfo.queuePath

/-- The fields of `preemptionPartitionContext` read by the preemption functions. -/
structure PreemptionPartitionCtx where
  partitionTotalResource : Resource
  leafQueues : List (String × PreemptionQueueCtx)
deriving DecidableEq, Repr

/-- One allocation listed on a node (`cache.AllocationInfo`): its proto UUID and
queue name, and its allocated resource. -/
structure AllocInfo where
  uuid : String
  queueName : String
  allocatedResource : Resource
deriving DecidableEq, Repr

/-- The fields of a `SchedulingNode` read by `trySurgicalPreemptionOnNode`.
`checkAndAllocate` stands for `node.CheckAndAllocateResource(ask, true)`.
Modelled from the spec: the node-side fit check (`SchedulingNode` is not in the
sources); the claim only needs which boolean it returned. -/
structure SchedNode where
  AllocatingResource : Resource
  PreemptingResource : Resource
  CachedAvailableResource : Resource
  checkAndAllocate : Bool
  allocations : List AllocInfo
deriving DecidableEq, Repr

/-- `(allocating + ask) - preempting - available`, clamped at zero componentwise,
as computed at the top of `trySurgicalPreemptionOnNode`. -/
def resourceToPreempt (node : SchedNode) (askResource : Resource) : Resource :=
  ComponentWiseMax
    (Sub (Sub (Add node.AllocatingResource askResource) node.PreemptingResource)
      node.CachedAvailableResource)
    Zero

/-- `singleNodePreemptResult` (the node pointer is left implicit). -/
structure SingleNodePreemptResult where
  toReleaseAllocations : List (String × AllocInfo)
  totalReleasedResource : Resource
deriving DecidableEq, Repr

/-- The allocation-walking loop of `trySurgicalPreemptionOnNode`, threading the
accumulated release list, released total and the mutable shortage map. -/
def surgicalWalk (pctx : PreemptionPartitionCtx) (askResource toPreempt : Resource) :
    List AllocInfo → List (String × AllocInfo) → Resource → List (String × Resource) →
    Option SingleNodePreemptResult × List (String × Resource)
  | [], _, _, shortages => (none, shortages)
  | alloc :: rest, toRelease, total, shortages =>
    match (pctx.leafQueues.lookup alloc.queueName : Option PreemptionQueueCtx) with
    | none => surgicalWalk pctx askResource toPreempt rest toRelease total shortages
    | some preemptQueue =>
      -- skip when the queue has <= 0 preempt-able resource
      if Comp pctx.partitionTotalResource preemptQueue.preemptable Zero ≤ 0 then
        surgicalWalk pctx askResource toPreempt rest toRelease total shortages
      else
        let postPreemption := SubEliminateNegative preemptQueue.preemptable askResource
        -- skip unless preempting strictly lowers the preemptable share
        if 0 ≤ Comp pctx.partitionTotalResource postPreemption preemptQueue.preemptable then
          surgicalWalk pctx askResource toPreempt rest toRelease total shortages
        else
          -- the source calls headroomShortageUpdate but discards its boolean result
          let shortages1 :=
            (headroomShortageUpdate (chainPaths preemptQueue) alloc.allocatedResource
              shortages).2
          let toRelease1 := toRelease ++ [(alloc.uuid, alloc)]
          let total1 := Add total alloc.allocatedResource
          if StrictlyGreaterThanOrEquals total1 toPreempt then
            (some ⟨toRelease1, total1⟩, shortages1)
          else surgicalWalk pctx askResource toPreempt rest toRelease1 total1 shortages1

/-- `trySurgicalPreemptionOnNode`: when the ask already fits the node the result
is an empty release set; otherwise walk the node's allocations accumulating
victims until the released total covers `resourceToPreempt`, returning nil when
the walk ends short. -/
def trySurgicalPreemptionOnNode (pctx : PreemptionPartitionCtx) (node : SchedNode)
    (askResource : Resource) (headroomShortages : List (String × Resource)) :
    Option SingleNodePreemptResult × List (String × Resource) :=
  if node.checkAndAllocate then (some ⟨[], Zero⟩, headroomShortages)
  else
    surgicalWalk pctx askResource (resourceToPreempt node askResource) node.allocations []
      (NewResource) headroomShortages
where
  NewResource : Resource := []

/-- The node loop of `crossQueuePreemptionAllocate`: try nodes one by one,
threading the shortage map, stopping at the first non-nil result. -/
def nodesWalk (pctx : PreemptionPartitionCtx) (askResource : Resource) :
    List SchedNode → List (String × Resource) → Option (SingleNodePreemptResult × SchedNode)
  | [], _ => none
  | node :: rest, shortages =>
    match trySurgicalPreemptionOnNode pctx node askResource shortages with
    | (some preemptResult, _) => some (preemptResult, node)
    | (none, shortages1) => nodesWalk pctx askResource rest shortages1

/-- What `crossQueuePreemptionAllocate` returns: the chosen node together with
the preemption result that `createPreemptionAndAllocationProposal` turns into an
allocation carrying the victims as releases. -/
structure SchedulingAllocation where
  node : SchedNode
  preemptResult : SingleNodePreemptResult
deriving DecidableEq, Repr

/-- `crossQueuePreemptionAllocate`: nil partition context or unknown preemptor
queue yields nil; otherwise compute the preemptor's headroom shortages and scan
the nodes, returning nil when no node produced a result. -/
def crossQueuePreemptionAllocate (pctxOpt : Option PreemptionPartitionCtx)
    (nodes : List SchedNode) (candidateQueueName : String) (askResource : Resource) :
    Option SchedulingAllocation :=
  match pctxOpt with
  | none => none
  | some pctx =>
    match (pctx.leafQueues.lookup candidateQueueName : Option PreemptionQueueCtx) with
    | none => none
    | some preemptorQueue =>
      let headroomShortages := initHeadroomShortages preemptorQueue.chain askResource
      match nodesWalk pctx askResource nodes headroomShortages with
      | none => none
      | some (preemptResult, node) => some ⟨node, preemptResult⟩

/-! ### fixedRule.placeApplication (placement/fixed_rule.go)

`cache.PartitionInfo.GetQueue` and `cache.QueueInfo.IsLeafQueue` are not in the
sources. Modelled from the spec: queue lookup is a function from a fully
qualified path to `some isLeaf` when the queue exists and `none` when it does
not. A placement rule's outcome is its `(queuePath, error)` pair, with a
separate case for a Go nil-pointer panic. -/

inductive PlaceOutcome where
  | result (path : String) (hasErr : Bool)
  | panicked
deriving DecidableEq, Repr

/-- The fields of a `fixedRule` read by `placeApplication` (`qualified` was set by
`initialise` from the configured queue value; a parent rule may be configured
only when `qualified` is false). -/
structure FixedRule where
  queue : String
  qualified : Bool
  create : Bool
deriving DecidableEq, Repr

/-- `strings.HasPrefix`, computed structurally over the character lists. -/
def strHasPre (s pre : String) : Bool :=
  pre.toList.isPrefixOf s.toList

/-- Qualify a parent path as fixed_rule.go does:
prepend `root.` unless already present. -/
def qualifyParentName (parentName : String) : String :=
  if strHasPre parentName "root." then parentName else "root." ++ parentName

/-- The tail of `placeApplication` after `queueName` is computed: if the queue
does not exist and the rule cannot create, skip; otherwise return the name. -/
def fixedRuleFinish (fr : FixedRule) (getQueue : String → Option Bool)
    (queueName : String) : PlaceOutcome :=
  if !fr.create && (getQueue queueName).isNone then .result "" false
  else .result queueName false

/-- `fixedRule.placeApplication`. `filterAllows` is `fr.filter.allowUser(user)`;
`parentOutcome` is `some` of the configured parent rule's result on this
application, `none` when no parent rule is configured. When the parent path is
qualified and names no queue, the source dereferences the nil `GetQueue` result
(`info.GetQueue(parentName).IsLeafQueue()`) and panics. -/
def placeApplication (fr : FixedRule) (filterAllows : Bool)
    (parentOutcome : Option PlaceOutcome) (getQueue : String → Option Bool) :
    PlaceOutcome :=
  if !filterAllows then .result "" false
  else if fr.qualified then fixedRuleFinish fr getQueue fr.queue
  else
    match parentOutcome with
    | none => fixedRuleFinish fr getQueue ("root" ++ "." ++ fr.queue)
    | some .panicked => .panicked
    | some (.result _ true) => .result "" true
    | some (.result parentName false) =>
      if parentName = "" then .result "" false
      else
        let parentName1 := qualifyParentName parentName
        match getQueue parentName1 with
        | none => .panicked
        | some isLeaf =>
          if isLeaf then .result "" true
          else fixedRuleFinish fr getQueue (parentName1 ++ "." ++ fr.queue)

end scheduler

open resources scheduler

/-! ## Claim theorems -/

/-- C5, counterexample: at `PendingRepeatAsk = 2147483647` and `delta = 1` the
mathematical sum is non-negative, yet `AddPendingAskRepeat` returns `false` and
leaves the field unchanged, because the Go `int32` sum wraps to `-2^31`. -/
theorem c5_counterexample_int32_overflow :
    0 ≤ (2147483647 + 1 : Int) ∧
      AddPendingAskRepeat 2147483647 1 = (false, 2147483647) := by
  constructor
  · decide
  · decide

/-- C5, amended: `AddPendingAskRepeat(delta)` returns `true` and sets
`PendingRepeatAsk` to the 32-bit two's-complement value of `old + delta` when
that wrapped value is `≥ 0`, and returns `false` leaving the field unchanged
when the wrapped value is `< 0`; hence a non-negative `PendingRepeatAsk` never
becomes negative through this operation. -/
theorem c5_add_pending_ask_repeat_wrapped (pending delta : Int) :
    (0 ≤ int32wrap (pending + delta) →
      AddPendingAskRepeat pending delta = (true, int32wrap (pending + delta))) ∧
    (int32wrap (pending + delta) < 0 →
      AddPendingAskRepeat pending delta = (false, pending)) ∧
    (0 ≤ pending → 0 ≤ (AddPendingAskRepeat pending delta).2) := by
  refine ⟨fun h => ?_, fun h => ?_, fun h => ?_⟩
  · simp [AddPendingAskRepeat, h]
  · simp [AddPendingAskRepeat, not_le.mpr h]
  · by_cases hs : 0 ≤ int32wrap (pending + delta)
    · simp [AddPendingAskRepeat, hs]
    · simp [AddPendingAskRepeat, hs, h]

/-- C5, witness: at `pending = 5`, `delta = -3` the wrapped sum `2` is
non-negative, the call succeeds and the stored value stays non-negative. -/
theorem c5_add_pending_ask_repeat_wrapped_witness :
    AddPendingAskRepeat 5 (-3) = (true, int32wrap (5 + -3)) ∧
      0 ≤ (AddPendingAskRepeat 5 (-3)).2 :=
  ⟨(c5_add_pending_ask_repeat_wrapped 5 (-3)).1 (by decide),
    (c5_add_pending_ask_repeat_wrapped 5 (-3)).2.2 (by decide)⟩

/-- C9: `DecPendingResource` has no lower bound — after increasing a queue's
pending resource by one unit of memory and decreasing it by two, the queue's
`pendingResource` holds `-1` memory, a strictly negative component. -/
theorem c9_dec_pending_resource_underflows :
    get ((DecPendingResource
          (IncPendingResource (fun _ => []) ["a"] [("memory", 1)])
          ["a"] [("memory", 2)]) ["a"]) "memory" = -1 ∧
      get ((DecPendingResource
          (IncPendingResource (fun _ => []) ["a"] [("memory", 1)])
          ["a"] [("memory", 2)]) ["a"]) "memory" < 0 := by
  constructor
  · decide
  · decide

/-- C3: both `PartitionManager.Run` and `PartitionManager.Stop` take VALUE
receivers, so `deleteSchedulingPartitions`'s call to `Stop()` mutates a copy
that is immediately discarded — the stored manager is unchanged — and the `Run`
goroutine, which holds its own copy of the manager made at spawn time with
`stop = false`, never observes any stop flag: its loop has not exited after any
number of ticks, so `remove()` is never reached. The direct field write in
`RemoveSchedulingPartitionsByRMId` does change the stored struct but not the
goroutine's copy. -/
theorem c3_partition_manager_never_observes_stop :
    ∀ (stored : PartitionManager) (n : Nat),
      stopCallOnStoredManager stored = stored ∧
      (setStopFlagByRMId stored).stop = true ∧
      runLoopExitsWithin spawnedRunReceiver n = false := by
  intro stored n
  refine ⟨rfl, rfl, ?_⟩
  induction n with
  | zero => rfl
  | succ n ih => simpa [runLoopExitsWithin, spawnedRunReceiver] using ih

/-- C4: a managed, draining (not running) queue `root.a` with no children and no
applications: `RemoveQueue` returns `true`, but the parent's children map —
keyed by the short leaf name `"a"` as `NewSchedulingQueueInfo` keyed it — still
contains the queue, because `removeChildQueue` was passed the full name
`"root.a"`. The parent still reaches the "removed" queue. -/
theorem c4_remove_queue_leaves_parent_entry :
    RemoveQueue ⟨"root.a", true, false, 0, 0⟩ [("a", "root.a")] =
      (true, [("a", "root.a")]) ∧
    childKey "root.a" = "a" ∧
    ([("a", "root.a")].lookup "a" : Option String) = some "root.a" := by
  refine ⟨?_, ?_, ?_⟩
  · decide
  · decide
  · decide

/-- C2: `SortQueue` passes the LEFT queue's guaranteed resource as the capacity
for both sides of the comparison. With `l = (proposing memory 1, guaranteed
memory 10)` and `r = (proposing memory 2, guaranteed memory 100)` the sorted
result keeps `l` first, although the ratio computed from each queue's own
guaranteed resource puts `l`'s dominant share (1/10) strictly above `r`'s
(2/100): `CompFairnessRatio` on the queues' own resources returns `1`. -/
theorem c2_sort_queue_uses_left_guaranteed :
    SortQueue
        [⟨[("memory", 1)], [("memory", 10)]⟩, ⟨[("memory", 2)], [("memory", 100)]⟩]
        FairSortPolicy =
      [⟨[("memory", 1)], [("memory", 10)]⟩, ⟨[("memory", 2)], [("memory", 100)]⟩] ∧
    CompFairnessRatio [("memory", 1)] [("memory", 10)] [("memory", 2)] [("memory", 100)]
      = 1 := by
  constructor
  · decide
  · decide

/-- C1: an allocation is added to the victim set even though crediting it
decreases no headroom-shortage entry. The preemptor has no shortage (the map is
empty), so `headroomShortageUpdate` returns `false` for the victim's resource —
yet `trySurgicalPreemptionOnNode` returns a result whose `toReleaseAllocations`
contains that allocation: the boolean is discarded at the call site. -/
theorem c1_victim_counted_without_contribution :
    trySurgicalPreemptionOnNode
        ⟨[("memory", 100)],
          [("root.victim",
            ⟨[⟨"root.victim", [("memory", 50)], [], []⟩,
              ⟨"root", [("memory", 100)], [], []⟩], [("memory", 5)]⟩)]⟩
        ⟨[], [], [("memory", 1)], false, [⟨"u1", "root.victim", [("memory", 4)]⟩]⟩
        [("memory", 3)] [] =
      (some ⟨[("u1", ⟨"u1", "root.victim", [("memory", 4)]⟩)], [("memory", 4)]⟩, []) ∧
    (headroomShortageUpdate ["root.victim", "root"] [("memory", 4)] []).1 = false := by
  constructor
  · decide
  · decide

/-- Members of an ancestor chain are no longer than the starting path. -/
theorem mem_ancestorChain_length {p q : QueuePath} (h : p ∈ ancestorChain q) :
    p.length ≤ q.length := by
  induction q with
  | nil =>
    simp only [ancestorChain, List.mem_singleton] at h
    simp [h]
  | cons x xs ih =>
    simp only [ancestorChain, List.mem_cons] at h
    rcases h with h | h
    · simp [h]
    · exact (ih h).trans (by simp)

/-- C10: `IncPendingResource` adds the delta to the pending resource of the
queue and of every ancestor up to the root — the members of its parent chain —
and leaves every other queue untouched; `DecPendingResource` subtracts the
delta from exactly the same queues and no others. -/
theorem c10_pending_resource_frame (st : PendingMap) (q : QueuePath) (d : Resource)
    (p : QueuePath) :
    (p ∈ ancestorChain q →
      IncPendingResource st q d p = Add (st p) d ∧
      DecPendingResource st q d p = Sub (st p) d) ∧
    (p ∉ ancestorChain q →
      IncPendingResource st q d p = st p ∧
      DecPendingResource st q d p = st p) := by
  induction q with
  | nil =>
    constructor
    · intro hmem
      have hp : p = [] := by simpa [ancestorChain] using hmem
      subst hp
      exact ⟨by simp [IncPendingResource], by simp [DecPendingResource]⟩
    · intro hmem
      have hp : ¬p = [] := by simpa [ancestorChain] using hmem
      exact ⟨by simp [IncPendingResource, hp], by simp [DecPendingResource, hp]⟩
  | cons x xs ih =>
    constructor
    · intro hmem
      simp only [ancestorChain, List.mem_cons] at hmem
      rcases hmem with hp | hp
      · subst hp
        have hnot : (x :: xs) ∉ ancestorChain xs := by
          intro hmem2
          have hlen := mem_ancestorChain_length hmem2
          simp only [List.length_cons] at hlen
          omega
        have h1 := ih.2 hnot
        exact ⟨by simp [IncPendingResource, h1.1], by simp [DecPendingResource, h1.2]⟩
      · have hne : ¬p = x :: xs := by
          intro he
          subst he
          have hlen := mem_ancestorChain_length hp
          simp only [List.length_cons] at hlen
          omega
        have h1 := ih.1 hp
        exact ⟨by simp [IncPendingResource, hne, h1.1],
          by simp [DecPendingResource, hne, h1.2]⟩
    · intro hmem
      simp only [ancestorChain, List.mem_cons, not_or] at hmem
      obtain ⟨hne, hnm⟩ := hmem
      have h1 := ih.2 hnm
      exact ⟨by simp [IncPendingResource, hne, h1.1],
        by simp [DecPendingResource, hne, h1.2]⟩

/-- C10, witness: for the queue `root.a` (path `["a"]`), incrementing updates
the root (an ancestor) and decrementing leaves the unrelated queue `root.b`
untouched. -/
theorem c10_pending_resource_frame_witness :
    IncPendingResource (fun _ : QueuePath => ([] : Resource)) ["a"] [("memory", 2)] [] =
      Add ((fun _ : QueuePath => ([] : Resource)) []) [("memory", 2)] ∧
    DecPendingResource (fun _ : QueuePath => ([] : Resource)) ["a"] [("memory", 2)] ["b"] =
      (fun _ : QueuePath => ([] : Resource)) ["b"] :=
  ⟨((c10_pending_resource_frame (fun _ => []) ["a"] [("memory", 2)] []).1
      (by decide)).1,
    ((c10_pending_resource_frame (fun _ => []) ["a"] [("memory", 2)] ["b"]).2
      (by decide)).2⟩


namespace resources

/-- `get` over `ofFun`: the function's value inside the key list, zero outside. -/
theorem get_ofFun (ks : List String) (f : String → Int) (k : String) :
    get (ofFun ks f) k = if k ∈ ks then f k else 0 := by
  induction ks with
  | nil => simp [ofFun, get]
  | cons a as ih =>
    by_cases hka : k = a
    · subst hka
      simp [ofFun, get, List.lookup]
    · have hbeq : (k == a) = false := by simpa using hka
      have hstep : get (ofFun (a :: as) f) k = get (ofFun as f) k := by
        simp [ofFun, get, List.lookup, hbeq]
      rw [hstep, ih]
      simp [List.mem_cons, hka]

/-- `get` over `SubEliminateNegative`, pointwise. -/
theorem get_subEliminateNegative (a b : Resource) (k : String) :
    get (SubEliminateNegative a b) k
      = if k ∈ keysUnion a b then max (get a k - get b k) 0 else 0 :=
  get_ofFun (keysUnion a b) _ k

/-- Every component of `SubEliminateNegative` is non-negative. -/
theorem subEliminateNegative_nonneg (a b : Resource) (k : String) :
    0 ≤ get (SubEliminateNegative a b) k := by
  rw [get_subEliminateNegative]
  split
  · exact le_max_right _ _
  · exact le_refl 0

/-- `StrictlyGreaterThanZero` means some listed key carries a positive quantity. -/
theorem strictlyGreaterThanZero_iff (r : Resource) :
    StrictlyGreaterThanZero r = true ↔ ∃ x ∈ r, 0 < get r x.1 := by
  simp [StrictlyGreaterThanZero]

/-- The shortage `SubEliminateNegative a b` is positive somewhere exactly when
`a` exceeds `b` in some dimension. -/
theorem strictlyGreaterThanZero_subEliminateNegative (a b : Resource) :
    StrictlyGreaterThanZero (SubEliminateNegative a b) = true ↔
      ∃ k ∈ keysUnion a b, get b k < get a k := by
  rw [strictlyGreaterThanZero_iff]
  constructor
  · rintro ⟨x, hmem, hpos⟩
    simp only [SubEliminateNegative, ofFun] at hmem
    obtain ⟨k, hk, rfl⟩ := List.mem_map.mp hmem
    refine ⟨k, hk, ?_⟩
    rw [get_subEliminateNegative, if_pos hk, lt_max_iff] at hpos
    rcases hpos with hpos | hpos
    · exact sub_pos.mp hpos
    · exact absurd hpos (lt_irrefl 0)
  · rintro ⟨k, hk, hlt⟩
    refine ⟨(k, max (get a k - get b k) 0), ?_, ?_⟩
    · simp only [SubEliminateNegative, ofFun]
      exact List.mem_map.mpr ⟨k, hk, rfl⟩
    · rw [get_subEliminateNegative, if_pos hk, lt_max_iff]
      exact Or.inl (sub_pos.mpr hlt)

end resources

/-- Folding the collect-step of `initHeadroomShortages` appends exactly the
entries passing the filter. -/
theorem foldl_collect {α β : Type} (P : α → Bool) (h : α → β) (l : List α)
    (acc : List β) :
    l.foldl (fun m cur => if P cur then m ++ [h cur] else m) acc
      = acc ++ l.filterMap (fun cur => if P cur then some (h cur) else none) := by
  induction l generalizing acc with
  | nil => simp
  | cons c cs ih =>
    by_cases hc : P c
    · simp [List.foldl_cons, hc, ih, List.filterMap_cons]
    · simp [List.foldl_cons, hc, ih, List.filterMap_cons]

/-- `initHeadroomShortages` as a filterMap over the chain. -/
theorem initHeadroomShortages_eq_filterMap (chain : List QueueCtxInfo)
    (ask : Resource) :
    initHeadroomShortages chain ask
      = chain.filterMap (fun cur =>
          if StrictlyGreaterThanZero (SubEliminateNegative ask (headroomOf cur)) then
            some (cur.queuePath, SubEliminateNegative ask (headroomOf cur))
          else none) := by
  have h := foldl_collect
    (fun cur => StrictlyGreaterThanZero (SubEliminateNegative ask (headroomOf cur)))
    (fun cur => (cur.queuePath, SubEliminateNegative ask (headroomOf cur))) chain []
  simpa [initHeadroomShortages] using h

/-- C6: the map built by `initHeadroomShortages` holds exactly the queues of the
chain whose headroom `max − allocating + markedPreempted` is exceeded by the
ask's resource in some dimension, each bound to the componentwise non-negative
difference ask − headroom, which is strictly positive in at least one
component; chain queues whose headroom covers the ask contribute no entry. -/
theorem c6_init_headroom_shortages_characterization (chain : List QueueCtxInfo)
    (ask : Resource) (p : String) (s : Resource) :
    (p, s) ∈ initHeadroomShortages chain ask ↔
      ∃ c ∈ chain,
        c.queuePath = p ∧
        s = SubEliminateNegative ask (headroomOf c) ∧
        (∃ k ∈ keysUnion ask (headroomOf c),
          resources.get (headroomOf c) k < resources.get ask k) ∧
        (∀ k, 0 ≤ resources.get s k) ∧ (∃ k, 0 < resources.get s k) := by
  rw [initHeadroomShortages_eq_filterMap, List.mem_filterMap]
  constructor
  · rintro ⟨c, hc, hfc⟩
    by_cases hP : StrictlyGreaterThanZero (SubEliminateNegative ask (headroomOf c)) = true
    · simp only [hP, if_true] at hfc
      obtain ⟨hpath, hs⟩ : c.queuePath = p ∧ SubEliminateNegative ask (headroomOf c) = s :=
        by simpa using hfc
      refine ⟨c, hc, hpath, hs.symm, ?_, ?_, ?_⟩
      · exact (resources.strictlyGreaterThanZero_subEliminateNegative ask
          (headroomOf c)).mp hP
      · intro k
        rw [← hs]
        exact resources.subEliminateNegative_nonneg ask (headroomOf c) k
      · obtain ⟨x, _, hx⟩ := (resources.strictlyGreaterThanZero_iff _).mp hP
        refine ⟨x.1, ?_⟩
        rw [hs] at hx
        exact hx
    · simp [hP] at hfc
  · rintro ⟨c, hc, hpath, hs, hex, _, _⟩
    subst hs
    subst hpath
    have hP : StrictlyGreaterThanZero (SubEliminateNegative ask (headroomOf c)) = true :=
      (resources.strictlyGreaterThanZero_subEliminateNegative ask (headroomOf c)).mpr hex
    exact ⟨c, hc, by simp [hP]⟩

/-- C6, witness: a preemptor chain of `root.high` (max 10 memory, 9 allocating)
under `root` (max 100, 9 allocating) with an ask of 3 memory: `root.high` falls
short by 2 memory and appears in the shortage map. -/
theorem c6_init_headroom_shortages_witness :
    ("root.high", [("memory", 2)]) ∈
      initHeadroomShortages
        [⟨"root.high", [("memory", 10)], [("memory", 9)], []⟩,
          ⟨"root", [("memory", 100)], [("memory", 9)], []⟩]
        [("memory", 3)] := by
  apply (c6_init_headroom_shortages_characterization
    [⟨"root.high", [("memory", 10)], [("memory", 9)], []⟩,
      ⟨"root", [("memory", 100)], [("memory", 9)], []⟩]
    [("memory", 3)] "root.high" [("memory", 2)]).mpr
  refine ⟨⟨"root.high", [("memory", 10)], [("memory", 9)], []⟩, by decide, by decide,
    by decide, ⟨"memory", by decide, by decide⟩, ?_, ⟨"memory", by decide⟩⟩
  intro k
  by_cases hk : k = "memory"
  · subst hk
    decide
  · have hbeq : (k == "memory") = false := by simpa using hk
    simp [resources.get, List.lookup, hbeq]

/-- The allocation walk returns a result only once the released total covers
`toPreempt`. -/
theorem surgicalWalk_covers (pctx : PreemptionPartitionCtx) (ask toPreempt : Resource) :
    ∀ (allocs : List AllocInfo) (toRel : List (String × AllocInfo)) (total : Resource)
      (sh : List (String × Resource)) (r : SingleNodePreemptResult)
      (sh' : List (String × Resource)),
      surgicalWalk pctx ask toPreempt allocs toRel total sh = (some r, sh') →
      StrictlyGreaterThanOrEquals r.totalReleasedResource toPreempt = true := by
  intro allocs
  induction allocs with
  | nil =>
    intro toRel total sh r sh' h
    simp [surgicalWalk] at h
  | cons alloc rest ih =>
    intro toRel total sh r sh' h
    simp only [surgicalWalk] at h
    split at h
    · exact ih _ _ _ _ _ h
    · split at h
      · exact ih _ _ _ _ _ h
      · split at h
        · exact ih _ _ _ _ _ h
        · split at h
          · injection h with h1 h2
            injection h1 with h1
            subst h1
            simpa using ‹StrictlyGreaterThanOrEquals _ toPreempt = true›
          · exact ih _ _ _ _ _ h

/-- C7: `trySurgicalPreemptionOnNode` returns a non-nil result only when the ask
fits the node directly — the release set then being empty — or the victims'
total covers `resourceToPreempt = max(0, allocating + ask − preempting −
available)`; and `crossQueuePreemptionAllocate` returns nil whenever the node
scan yields nil on every node. -/
theorem c7_preemption_requires_fit_or_cover :
    (∀ (pctx : PreemptionPartitionCtx) (node : SchedNode) (ask : Resource)
        (sh : List (String × Resource)) (r : SingleNodePreemptResult)
        (sh' : List (String × Resource)),
      trySurgicalPreemptionOnNode pctx node ask sh = (some r, sh') →
        (node.checkAndAllocate = true ∧ r.toReleaseAllocations = []) ∨
        StrictlyGreaterThanOrEquals r.totalReleasedResource
          (resourceToPreempt node ask) = true) ∧
    (∀ (pctxOpt : Option PreemptionPartitionCtx) (nodes : List SchedNode)
        (qn : String) (ask : Resource),
      (∀ (pctx : PreemptionPartitionCtx) (pq : PreemptionQueueCtx),
          pctxOpt = some pctx → pctx.leafQueues.lookup qn = some pq →
          nodesWalk pctx ask nodes (initHeadroomShortages pq.chain ask) = none) →
      crossQueuePreemptionAllocate pctxOpt nodes qn ask = none) := by
  constructor
  · intro pctx node ask sh r sh' h
    rw [trySurgicalPreemptionOnNode] at h
    split at h
    · left
      injection h with h1 h2
      injection h1 with h1
      subst h1
      exact ⟨by assumption, rfl⟩
    · right
      exact surgicalWalk_covers pctx ask (resourceToPreempt node ask)
        node.allocations [] _ sh r sh' h
  · intro pctxOpt nodes qn ask hall
    match pctxOpt with
    | none => rfl
    | some pctx =>
      rw [crossQueuePreemptionAllocate]
      cases hlq : pctx.leafQueues.lookup qn with
      | none => rfl
      | some pq =>
        dsimp only
        rw [hall pctx pq rfl hlq]

/-- C7, witness: a node the ask fits directly yields the empty release set, and
with no nodes at all the cross-queue preemption emits nothing. -/
theorem c7_preemption_requires_fit_or_cover_witness :
    (((⟨[], [], [("memory", 5)], true, []⟩ : SchedNode).checkAndAllocate = true ∧
        (⟨[], Zero⟩ : SingleNodePreemptResult).toReleaseAllocations = []) ∨
      StrictlyGreaterThanOrEquals
        (⟨[], Zero⟩ : SingleNodePreemptResult).totalReleasedResource
        (resourceToPreempt ⟨[], [], [("memory", 5)], true, []⟩ [("memory", 3)])
        = true) ∧
    crossQueuePreemptionAllocate (some ⟨[("memory", 10)], [("q", ⟨[], []⟩)]⟩)
        [] "q" [("memory", 3)] = none :=
  ⟨c7_preemption_requires_fit_or_cover.1 ⟨[("memory", 10)], [("q", ⟨[], []⟩)]⟩
      ⟨[], [], [("memory", 5)], true, []⟩ [("memory", 3)] [] ⟨[], Zero⟩ []
      (by decide),
    c7_preemption_requires_fit_or_cover.2
      (some ⟨[("memory", 10)], [("q", ⟨[], []⟩)]⟩) [] "q" [("memory", 3)]
      (fun pctx pq h1 h2 => by
        cases h1
        have h3 : pq = ⟨[], []⟩ := by simpa using h2.symm
        subst h3
        rfl)⟩

/-- C8: with an unqualified fixed rule, a configured parent rule, and the filter
admitting the user, whenever the parent rule returns a non-empty path without
error and that path (after `root.` qualification) names a leaf queue,
`placeApplication` returns the empty path with a non-nil error. -/
theorem c8_fixed_rule_parent_leaf_fails (fr : FixedRule) (parentName : String)
    (parentOutcome : Option PlaceOutcome) (getQueue : String → Option Bool) :
    fr.qualified = false →
    parentOutcome = some (.result parentName false) → parentName ≠ "" →
    getQueue (qualifyParentName parentName) = some true →
    placeApplication fr true parentOutcome getQueue = .result "" true := by
  intro hq hp hne hleaf
  subst hp
  simp [placeApplication, hq, hne, hleaf]

/-- C8, witness: the parent rule returned the existing leaf `root.parentleaf`;
the fixed rule fails with an error and an empty path. -/
theorem c8_fixed_rule_parent_leaf_fails_witness :
    placeApplication ⟨"child", false, false⟩ true
        (some (.result "root.parentleaf" false))
        (fun s => if s = "root.parentleaf" then some true else none)
      = .result "" true :=
  c8_fixed_rule_parent_leaf_fails ⟨"child", false, false⟩ "root.parentleaf"
    (some (.result "root.parentleaf" false))
    (fun s => if s = "root.parentleaf" then some true else none)
    rfl rfl (by decide) (by decide)
